import Mathlib

/-!
Shallow embedding of the sniperX trading core: the position ledger
(`balance_manager.py`), the fill simulation over order-book levels
(`polymarket_client.py` and the sell loop in `main.py`), and the
per-instrument liquidation-timer steps of the engine loop (`main.py`).
Python floats are modelled as exact rationals, so "within floating
tolerance" statements are proved as exact equalities.
-/

namespace SniperX

/-- Position record stored per instrument in `balance.yaml`:
fields `shares`, `avg_cost`, `total_invested` (balance_manager.py). -/
structure Position where
  shares : ℚ
  avg_cost : ℚ
  total_invested : ℚ
  deriving Repr, DecidableEq

/-- Ledger state persisted in `balance.yaml`: a `balance` and a map from
instrument slug to `Position`, modelled as an association list. -/
structure LedgerData where
  balance : ℚ
  positions : List (String × Position)
  deriving Repr, DecidableEq

/-- Default state returned by `load_balance` when the balance file is absent
or parses to `None`: `{"balance": 30.0, "positions": {}}`. -/
def defaultLedger : LedgerData := ⟨30, []⟩

/-- Content of the persistent balance file: `none` models an absent file or
one whose YAML parse yields `None`. -/
def load_balance (file : Option LedgerData) : LedgerData :=
  file.getD defaultLedger

/-- Lookup of `data['positions'].get(slug)`. -/
def lookupPos (ps : List (String × Position)) (slug : String) : Option Position :=
  (ps.find? (fun e => e.1 == slug)).map (·.2)

/-- Update (or insert) the entry for `slug`, as Python dict assignment does:
replace the binding when the key is present, append it otherwise. -/
def setPos : List (String × Position) → String → Position → List (String × Position)
  | [], slug, p => [(slug, p)]
  | e :: rest, slug, p =>
    if e.1 == slug then (slug, p) :: rest else e :: setPos rest slug p

/-- Failure cause of `record_buy`: the code prints an insufficient-balance
warning and returns `False`. -/
inductive BuyError where
  | InsufficientBalance
  deriving Repr, DecidableEq

/-- Failure causes of `record_sell`: no tracked position, or not enough
shares; in either case the code returns `False` without mutating. -/
inductive SellError where
  | NoPosition
  | InsufficientShares
  deriving Repr, DecidableEq

/-- Position update of `record_buy` (balance_manager.py lines 74–82): shares
and invested cost accumulate, `avg_cost` is recomputed
(`new_invested / new_shares` if `new_shares > 0` else `0`). -/
def afterBuyPos (pos : Position) (shares total_cost : ℚ) : Position :=
  let new_shares := pos.shares + shares
  let new_invested := pos.total_invested + total_cost
  ⟨new_shares, if 0 < new_shares then new_invested / new_shares else 0, new_invested⟩

/-- Embedding of `record_buy(slug, shares, total_cost)` from
balance_manager.py: fail when `balance < total_cost`, otherwise deduct the
cost, create the position on first use (zeroed fields), and update it with
`afterBuyPos`. -/
def record_buy (data : LedgerData) (slug : String) (shares total_cost : ℚ) :
    Except BuyError LedgerData :=
  if data.balance < total_cost then
    .error .InsufficientBalance
  else
    .ok ⟨data.balance - total_cost,
         setPos data.positions slug
           (afterBuyPos ((lookupPos data.positions slug).getD ⟨0, 0, 0⟩)
             shares total_cost)⟩

/-- Proportional cost allocation of `record_sell` (balance_manager.py line
112): `invested_in_sold = (shares / old_shares) * old_invested if
old_shares > 0 else 0`. -/
def investedInSold (pos : Position) (shares : ℚ) : ℚ :=
  if 0 < pos.shares then (shares / pos.shares) * pos.total_invested else 0

/-- Position update of `record_sell` (balance_manager.py lines 119–121):
shares and invested cost shrink, `avg_cost` is recomputed
(`total_invested / shares` if the remaining shares are positive, else 0). -/
def afterSalePos (pos : Position) (shares : ℚ) : Position :=
  let s2 := pos.shares - shares
  let inv2 := pos.total_invested - investedInSold pos shares
  ⟨s2, if 0 < s2 then inv2 / s2 else 0, inv2⟩

/-- Embedding of `record_sell(slug, shares, total_proceeds)` from
balance_manager.py: fail with `NoPosition` when the slug is untracked, with
`InsufficientShares` when `position.shares < shares`; otherwise allocate
`investedInSold`, credit the proceeds, and replace the position by
`afterSalePos`.  Returns the new state and the `profit_loss`. -/
def record_sell (data : LedgerData) (slug : String) (shares total_proceeds : ℚ) :
    Except SellError (LedgerData × ℚ) :=
  match lookupPos data.positions slug with
  | none => .error .NoPosition
  | some pos =>
    if pos.shares < shares then
      .error .InsufficientShares
    else
      .ok (⟨data.balance + total_proceeds,
            setPos data.positions slug (afterSalePos pos shares)⟩,
           total_proceeds - investedInSold pos shares)

/-- Embedding of `get_position(slug)`. -/
def get_position (file : Option LedgerData) (slug : String) : Option Position :=
  lookupPos (load_balance file).positions slug

/-- Embedding of `get_balance()` (`data.get('balance', 0.0)`; our model
always carries a balance field). -/
def get_balance (file : Option LedgerData) : ℚ :=
  (load_balance file).balance

/-- Spec invariant on one position: `avg_cost * shares == total_invested`
and `shares == 0 ⇒ total_invested == 0`. -/
def posInvariant (p : Position) : Prop :=
  p.avg_cost * p.shares = p.total_invested ∧ (p.shares = 0 → p.total_invested = 0)

/-- Spec invariant over a whole ledger state: every tracked position
satisfies `posInvariant`. -/
def ledgerInvariant (d : LedgerData) : Prop :=
  ∀ s p, lookupPos d.positions s = some p → posInvariant p

/-- Nonnegative share counts for every tracked position (the data model's
`shares: quantity ≥ 0`). -/
def sharesNonneg (d : LedgerData) : Prop :=
  ∀ s p, lookupPos d.positions s = some p → 0 ≤ p.shares

/-- Fill emitted by the buy planner in `save_orderbook_snapshot`:
`{'price': .., 'shares': .., 'cost': ..}`. -/
structure Fill where
  price : ℚ
  shares : ℚ
  cost : ℚ
  deriving Repr, DecidableEq

/-- Trade plan attached to a BUY snapshot:
`{'shares': total_shares, 'spend': total_spent, 'fills': fills}`. -/
structure TradeInfo where
  shares : ℚ
  spend : ℚ
  fills : List Fill
  deriving Repr, DecidableEq

/-- Ask levels kept by the snapshot filter: only entries with
`price > 0 and size > 0` survive (polymarket_client.py lines 87–100). -/
def usableAsks (asks : List (ℚ × ℚ)) : List (ℚ × ℚ) :=
  asks.filter (fun a => decide (0 < a.1) && decide (0 < a.2))

/-- Ascending stable sort by price, as Python's
`sorted(filtered_asks, key=lambda x: x['price'])`. -/
def sortAsksAsc (asks : List (ℚ × ℚ)) : List (ℚ × ℚ) :=
  List.insertionSort (fun x y => x.1 ≤ y.1) asks

/-- Descending stable sort by price, as Python's
`sorted(bids, key=lambda x: float(x['price']), reverse=True)`. -/
def sortBidsDesc (bids : List (ℚ × ℚ)) : List (ℚ × ℚ) :=
  List.insertionSort (fun x y => y.1 ≤ x.1) bids

/-- Fill loop of the BUY branch (polymarket_client.py lines 149–165), with
the Python loop's mutable locals `remaining_investment`, `total_shares`,
`total_spent`, `fills` carried as accumulators: break when the remaining
budget is `<= 0`, take `min(size, remaining / price)` shares at each level,
and record a fill only when that quantity is positive. -/
def buyLoop : ℚ → ℚ → ℚ → List Fill → List (ℚ × ℚ) → List Fill × ℚ × ℚ
  | _, total_shares, total_spent, fills, [] => (fills, total_shares, total_spent)
  | remaining, total_shares, total_spent, fills, (price, size) :: rest =>
    if remaining ≤ 0 then (fills, total_shares, total_spent)
    else
      let shares_to_buy := min size (remaining / price)
      let cost := shares_to_buy * price
      if 0 < shares_to_buy then
        buyLoop (remaining - cost) (total_shares + shares_to_buy)
          (total_spent + cost) (fills ++ [⟨price, shares_to_buy, cost⟩]) rest
      else
        buyLoop remaining total_shares total_spent fills rest

/-- Trade-plan computation of `save_orderbook_snapshot` for a BUY snapshot
(polymarket_client.py lines 139–190): when the filtered ask list is nonempty
and `investment > 0`, walk the price-sorted asks with `buyLoop` and return
`trade_info` when at least one fill resulted; otherwise `trade_info` stays
`None` ("no trade this cycle", not an error). -/
def trade_plan (investment : ℚ) (asks : List (ℚ × ℚ)) : Option TradeInfo :=
  let filtered := usableAsks asks
  if filtered ≠ [] ∧ 0 < investment then
    let r := buyLoop investment 0 0 [] (sortAsksAsc filtered)
    if r.1 ≠ [] then some ⟨r.2.1, r.2.2, r.1⟩ else none
  else none

/-- Interpretation of the optional trade plan as the spec's
`(fills, total_shares, total_cost)` triple, with `None` read as the empty
result. -/
def planResult : Option TradeInfo → List Fill × ℚ × ℚ
  | none => ([], 0, 0)
  | some i => (i.fills, i.shares, i.spend)

/-- Modelled from the spec (claim C5's wording), for comparison with
`trade_plan`: sort the usable levels ascending by price and walk them,
taking `shares = min(level.size, remaining_budget / level.price)` at each
level, emitting a fill and subtracting its cost whenever `shares > 0`,
stopping when the remaining budget is `<= 0` or levels are exhausted; a
non-positive budget or an empty usable list yields empty fills, zero
shares, zero cost. -/
def specBuyWalk : ℚ → List (ℚ × ℚ) → List Fill × ℚ × ℚ
  | _, [] => ([], 0, 0)
  | remaining, (price, size) :: rest =>
    if remaining ≤ 0 then ([], 0, 0)
    else
      let shares := min size (remaining / price)
      if 0 < shares then
        let cost := shares * price
        let r := specBuyWalk (remaining - cost) rest
        (⟨price, shares, cost⟩ :: r.1, shares + r.2.1, cost + r.2.2)
      else
        specBuyWalk remaining rest

/-- Modelled from the spec (claim C5's wording): the whole simulate-buy
operation as the spec describes it. -/
def simulate_buy_spec (budget : ℚ) (asks : List (ℚ × ℚ)) : List Fill × ℚ × ℚ :=
  if budget ≤ 0 ∨ usableAsks asks = [] then ([], 0, 0)
  else specBuyWalk budget (sortAsksAsc (usableAsks asks))

/-- Fill emitted by the forced-sell loop in main.py:
`{'price': .., 'shares': .., 'proceeds': ..}`. -/
structure SellFill where
  price : ℚ
  shares : ℚ
  proceeds : ℚ
  deriving Repr, DecidableEq

/-- Sell fill loop of main.py lines 172–184, locals `shares_to_sell`,
`total_proceeds`, `sell_fills` carried as accumulators: break when
`shares_to_sell <= 0`, otherwise take `min(size, shares_to_sell)` shares
and append a fill unconditionally.  Returns the fills, the accumulated
proceeds and the leftover unfilled quantity. -/
def sellLoop : ℚ → ℚ → List SellFill → List (ℚ × ℚ) → List SellFill × ℚ × ℚ
  | shares_to_sell, total_proceeds, fills, [] => (fills, total_proceeds, shares_to_sell)
  | shares_to_sell, total_proceeds, fills, (price, size) :: rest =>
    if shares_to_sell ≤ 0 then (fills, total_proceeds, shares_to_sell)
    else
      let shares_at_price := min size shares_to_sell
      let proceeds := shares_at_price * price
      sellLoop (shares_to_sell - shares_at_price) (total_proceeds + proceeds)
        (fills ++ [⟨price, shares_at_price, proceeds⟩]) rest

/-- Simulated sell against the bid side (main.py lines 162–184): sort bids
descending by price and run the fill loop for the requested quantity. -/
def simulate_sell (quantity : ℚ) (bids : List (ℚ × ℚ)) : List SellFill × ℚ × ℚ :=
  sellLoop quantity 0 [] (sortBidsDesc bids)

/-- Filled quantity of a simulated sell: the sum of the fills' share
quantities. -/
def filledQuantity (r : List SellFill × ℚ × ℚ) : ℚ :=
  (r.1.map SellFill.shares).sum

/-- Timer map `sell_timers = {slug: datetime when timer started}` from
main.py, with timestamps as rationals (seconds). -/
def lookupTimer (ts : List (String × ℚ)) (slug : String) : Option ℚ :=
  (ts.find? (fun e => e.1 == slug)).map (·.2)

/-- Assignment `sell_timers[slug] = now`. -/
def setTimer : List (String × ℚ) → String → ℚ → List (String × ℚ)
  | [], slug, t => [(slug, t)]
  | e :: rest, slug, t =>
    if e.1 == slug then (slug, t) :: rest else e :: setTimer rest slug t

/-- Deletion `del sell_timers[slug]`. -/
def removeTimer (ts : List (String × ℚ)) (slug : String) : List (String × ℚ) :=
  ts.filter (fun e => !(e.1 == slug))

/-- Expiry test of main.py line 144: `time_elapsed >= sell_timeout`, with
`time_elapsed = now - armed_at`. -/
def timerExpired (armed_at timeout now : ℚ) : Bool :=
  decide (timeout ≤ now - armed_at)

/-- Signal handling for an instrument whose ledger position has
`shares > 0` (main.py lines 63–81): when a timer is already running it is
reset to the current time; when no timer exists the code only prints and
does not arm one. -/
def heldSignalStep (timers : List (String × ℚ)) (slug : String) (now : ℚ) :
    List (String × ℚ) :=
  if (lookupTimer timers slug).isSome then setTimer timers slug now else timers

/-- Arguments of a successful `record_sell` call made by the expiry
handler. -/
structure SellRecordCall where
  slug : String
  shares : ℚ
  proceeds : ℚ
  deriving Repr, DecidableEq

/-- Outcome of the timer-expiry handling for one instrument: the ledger
state after the step, the timer map after the step, and the successful
sell recording, if any. -/
structure ExpiryResult where
  ledger : LedgerData
  timers : List (String × ℚ)
  recorded : Option SellRecordCall
  deriving Repr, DecidableEq

/-- Timer-expiry handling of main.py lines 144–212, for one instrument
whose timer has expired: re-read the position; when it has positive shares,
fetch the book (`book = none` models a fetch failure), fill against the
descending-sorted bids, and call `record_sell(slug, position['shares'],
total_proceeds)`; the timer entry is deleted on success and on both failure
paths, while a position with non-positive shares leaves everything
untouched. -/
def expiryStep (d : LedgerData) (timers : List (String × ℚ)) (slug : String)
    (book : Option (List (ℚ × ℚ))) : ExpiryResult :=
  match lookupPos d.positions slug with
  | some pos =>
    if 0 < pos.shares then
      match book with
      | some bids =>
        let total_proceeds := (simulate_sell pos.shares bids).2.1
        match record_sell d slug pos.shares total_proceeds with
        | .ok (d2, _) =>
          ⟨d2, removeTimer timers slug, some ⟨slug, pos.shares, total_proceeds⟩⟩
        | .error _ => ⟨d, removeTimer timers slug, none⟩
      | none => ⟨d, removeTimer timers slug, none⟩
    else ⟨d, timers, none⟩
  | none => ⟨d, timers, none⟩

/-- State of the persistent ledger file together with the boolean returned
by `record_buy`: on failure the function returns `False` before any
`save_balance`, so the file keeps its old contents. -/
def applyBuy (d : LedgerData) (slug : String) (shares cost : ℚ) :
    LedgerData × Bool :=
  match record_buy d slug shares cost with
  | .ok d2 => (d2, true)
  | .error _ => (d, false)

/-- State of the persistent ledger file together with the boolean returned
by `record_sell`. -/
def applySell (d : LedgerData) (slug : String) (shares proceeds : ℚ) :
    LedgerData × Bool :=
  match record_sell d slug shares proceeds with
  | .ok (d2, _) => (d2, true)
  | .error _ => (d, false)

/-- Entry appended to `trade_history.txt` by `record_buy`, `None` when the
buy fails (`append_trade_history` runs only after the success path). -/
def buyHistoryEntry (d : LedgerData) (slug : String) (shares cost : ℚ) :
    Option (String × ℚ × ℚ × ℚ) :=
  match record_buy d slug shares cost with
  | .ok d2 => some (slug, shares, cost, d2.balance)
  | .error _ => none

/-- Entry appended to `trade_history.txt` by `record_sell`, `None` when the
sell fails. -/
def sellHistoryEntry (d : LedgerData) (slug : String) (shares proceeds : ℚ) :
    Option (String × ℚ × ℚ × ℚ) :=
  match record_sell d slug shares proceeds with
  | .ok (d2, _) => some (slug, shares, proceeds, d2.balance)
  | .error _ => none

/-- Concrete ledger state with one small tracked position, used when
instantiating general statements. -/
def demoLedger : LedgerData := ⟨30, [("x", ⟨2, 1, 2⟩)]⟩

/-- Concrete ledger state holding ten shares bought for 12, average cost
6/5, used when instantiating general statements. -/
def demoHolding : LedgerData := ⟨30, [("x", ⟨10, 6/5, 12⟩)]⟩

lemma lookupPos_setPos_self (ps : List (String × Position)) (slug : String)
    (p : Position) : lookupPos (setPos ps slug p) slug = some p := by
  induction ps with
  | nil => simp [setPos, lookupPos]
  | cons e rest ih =>
    by_cases he : e.1 = slug
    · simp [setPos, lookupPos, he]
    · simp only [setPos, beq_iff_eq, he, if_false]
      simpa [lookupPos, he] using ih

lemma lookupPos_setPos_other (ps : List (String × Position)) (slug s : String)
    (p : Position) (hne : s ≠ slug) :
    lookupPos (setPos ps slug p) s = lookupPos ps s := by
  induction ps with
  | nil =>
    have : slug ≠ s := fun hc => hne hc.symm
    simp [setPos, lookupPos, this]
  | cons e rest ih =>
    by_cases he : e.1 = slug
    · have hslug : slug ≠ s := fun hc => hne hc.symm
      have hes : e.1 ≠ s := he ▸ hslug
      simp [setPos, lookupPos, he, hslug, hes]
    · by_cases hes : e.1 = s
      · simp [setPos, lookupPos, he, hes, hne]
      · simp only [setPos, beq_iff_eq, he, if_false]
        simpa [lookupPos, hes] using ih

lemma lookupPos_setPos (ps : List (String × Position)) (slug s : String)
    (p : Position) :
    lookupPos (setPos ps slug p) s = if s = slug then some p else lookupPos ps s := by
  by_cases h : s = slug
  · subst h
    simp [lookupPos_setPos_self]
  · simp [h, lookupPos_setPos_other ps slug s p h]

lemma lookupTimer_setTimer_self (ts : List (String × ℚ)) (slug : String)
    (t : ℚ) : lookupTimer (setTimer ts slug t) slug = some t := by
  induction ts with
  | nil => simp [setTimer, lookupTimer]
  | cons e rest ih =>
    by_cases he : e.1 = slug
    · simp [setTimer, lookupTimer, he]
    · simp only [setTimer, beq_iff_eq, he, if_false]
      simpa [lookupTimer, he] using ih

lemma lookupTimer_removeTimer (ts : List (String × ℚ)) (slug : String) :
    lookupTimer (removeTimer ts slug) slug = none := by
  induction ts with
  | nil => rfl
  | cons e rest ih =>
    by_cases he : e.1 = slug
    · have hdrop : removeTimer (e :: rest) slug = removeTimer rest slug := by
        simp [removeTimer, List.filter_cons, he]
      rw [hdrop]
      exact ih
    · have hkeep : removeTimer (e :: rest) slug = e :: removeTimer rest slug := by
        simp [removeTimer, List.filter_cons, he]
      rw [hkeep]
      unfold lookupTimer at *
      rw [List.find?_cons_of_neg _ (by simp [he])]
      exact ih

lemma record_sell_ok_eq (d : LedgerData) (slug : String) (pos : Position)
    (shares proceeds : ℚ) (hpos : lookupPos d.positions slug = some pos)
    (hle : shares ≤ pos.shares) :
    record_sell d slug shares proceeds =
      .ok (⟨d.balance + proceeds, setPos d.positions slug (afterSalePos pos shares)⟩,
           proceeds - investedInSold pos shares) := by
  unfold record_sell
  rw [hpos]
  simp [not_lt.mpr hle]

lemma afterSalePos_all (pos : Position) (hs : 0 < pos.shares) :
    afterSalePos pos pos.shares = ⟨0, 0, 0⟩ := by
  unfold afterSalePos investedInSold
  simp [hs, div_self (ne_of_gt hs)]

lemma mem_usableAsks {asks : List (ℚ × ℚ)} {l : ℚ × ℚ}
    (h : l ∈ usableAsks asks) : 0 < l.1 ∧ 0 < l.2 := by
  have := List.of_mem_filter h
  simpa using this

lemma mem_sortAsksAsc {asks : List (ℚ × ℚ)} {l : ℚ × ℚ}
    (h : l ∈ sortAsksAsc asks) : l ∈ asks := by
  unfold sortAsksAsc at h
  exact (List.perm_insertionSort _ asks).mem_iff.mp h

lemma sortAsksAsc_ne_nil {asks : List (ℚ × ℚ)} (h : asks ≠ []) :
    sortAsksAsc asks ≠ [] := by
  intro hc
  apply h
  have := (List.perm_insertionSort (fun x y : ℚ × ℚ => x.1 ≤ y.1) asks).length_eq
  rw [← sortAsksAsc, hc] at this
  exact List.length_eq_zero.mp this.symm

lemma buyLoop_eq_specWalk (levels : List (ℚ × ℚ)) :
    ∀ remaining ts tc fills,
      buyLoop remaining ts tc fills levels =
        (fills ++ (specBuyWalk remaining levels).1,
         ts + (specBuyWalk remaining levels).2.1,
         tc + (specBuyWalk remaining levels).2.2) := by
  induction levels with
  | nil => intro remaining ts tc fills; simp [buyLoop, specBuyWalk]
  | cons level rest ih =>
    intro remaining ts tc fills
    obtain ⟨price, size⟩ := level
    by_cases hr : remaining ≤ 0
    · simp [buyLoop, specBuyWalk, hr]
    · by_cases hs : 0 < min size (remaining / price)
      · simp only [buyLoop, specBuyWalk, hr, if_false, hs, if_true, ih]
        simp [add_assoc, add_comm, add_left_comm]
      · simp only [buyLoop, specBuyWalk, hr, if_false, hs, if_false]
        exact ih remaining ts tc fills

lemma specBuyWalk_fills_nonempty (price size remaining : ℚ)
    (rest : List (ℚ × ℚ)) (hp : 0 < price) (hsz : 0 < size)
    (hr : 0 < remaining) :
    (specBuyWalk remaining ((price, size) :: rest)).1 ≠ [] := by
  have hshares : 0 < min size (remaining / price) :=
    lt_min hsz (div_pos hr hp)
  simp [specBuyWalk, not_le.mpr hr, hshares]

lemma specBuyWalk_spend_le (levels : List (ℚ × ℚ))
    (hpos : ∀ l ∈ levels, 0 < l.1) :
    ∀ remaining, (specBuyWalk remaining levels).2.2 ≤ max remaining 0 := by
  induction levels with
  | nil => intro remaining; simp [specBuyWalk, le_max_right]
  | cons level rest ih =>
    intro remaining
    obtain ⟨price, size⟩ := level
    have hp : 0 < price := hpos (price, size) (List.mem_cons_self _ _)
    have hrest : ∀ l ∈ rest, 0 < l.1 := fun l hl => hpos l (List.mem_cons_of_mem _ hl)
    by_cases hr : remaining ≤ 0
    · simp [specBuyWalk, hr, le_max_right]
    · push_neg at hr
      by_cases hs : 0 < min size (remaining / price)
      · have hcost : min size (remaining / price) * price ≤ remaining := by
          have h1 : min size (remaining / price) ≤ remaining / price := min_le_right _ _
          calc min size (remaining / price) * price
              ≤ (remaining / price) * price :=
                mul_le_mul_of_nonneg_right h1 (le_of_lt hp)
            _ = remaining := div_mul_cancel₀ remaining (ne_of_gt hp)
        have hrec := ih hrest (remaining - min size (remaining / price) * price)
        have hmax : max (remaining - min size (remaining / price) * price) 0 =
            remaining - min size (remaining / price) * price :=
          max_eq_left (by linarith)
        rw [hmax] at hrec
        simp only [specBuyWalk, not_le.mpr hr, if_false, hs, if_true]
        have : max remaining 0 = remaining := max_eq_left (le_of_lt hr)
        rw [this]
        linarith
      · simp only [specBuyWalk, not_le.mpr hr, if_false, hs, if_false]
        exact ih hrest remaining

lemma sellLoop_filled_le (levels : List (ℚ × ℚ)) :
    ∀ shares_to_sell total_proceeds fills, 0 ≤ shares_to_sell →
      (((sellLoop shares_to_sell total_proceeds fills levels).1.map
          SellFill.shares).sum : ℚ) ≤
        ((fills.map SellFill.shares).sum : ℚ) + shares_to_sell := by
  induction levels with
  | nil =>
    intro q tp fills hq
    simp only [sellLoop]
    linarith
  | cons level rest ih =>
    intro q tp fills hq
    obtain ⟨price, size⟩ := level
    by_cases hz : q ≤ 0
    · simp only [sellLoop, hz, if_true]
      linarith
    · push_neg at hz
      simp only [sellLoop, not_le.mpr hz, if_false]
      have hmin_le : min size q ≤ q := min_le_right _ _
      have hq2 : 0 ≤ q - min size q := by linarith
      have hrec := ih (q - min size q) (tp + min size q * price)
        (fills ++ [⟨price, min size q, min size q * price⟩]) hq2
      refine le_trans hrec (le_of_eq ?_)
      simp [List.map_append]

lemma record_buy_ok_eq (d : LedgerData) (slug : String) (shares cost : ℚ)
    (hb : ¬ d.balance < cost) :
    record_buy d slug shares cost =
      .ok ⟨d.balance - cost,
           setPos d.positions slug
             (afterBuyPos ((lookupPos d.positions slug).getD ⟨0, 0, 0⟩)
               shares cost)⟩ := by
  unfold record_buy
  simp [hb]

lemma getD_shares_nonneg (d : LedgerData) (hnn : sharesNonneg d)
    (slug : String) :
    0 ≤ ((lookupPos d.positions slug).getD ⟨0, 0, 0⟩).shares := by
  cases h : lookupPos d.positions slug with
  | none => simp
  | some q => simpa using hnn slug q h

lemma posInvariant_afterBuyPos (pos : Position) (shares cost : ℚ)
    (hp : 0 ≤ pos.shares) (hsh : 0 < shares) :
    posInvariant (afterBuyPos pos shares cost) := by
  have h : 0 < pos.shares + shares := by linarith
  unfold afterBuyPos posInvariant
  constructor
  · simp only [h, if_true]
    exact div_mul_cancel₀ _ (ne_of_gt h)
  · intro h0
    simp only [] at h0
    exact absurd h0 (ne_of_gt h)

lemma posInvariant_afterSalePos (pos : Position) (shares : ℚ)
    (hp : 0 ≤ pos.shares) (hinv : posInvariant pos) (hle : shares ≤ pos.shares) :
    posInvariant (afterSalePos pos shares) := by
  have hs2 : 0 ≤ pos.shares - shares := by linarith
  unfold afterSalePos posInvariant
  rcases lt_or_eq_of_le hs2 with h | h
  · constructor
    · simp only [h, if_true]
      exact div_mul_cancel₀ _ (ne_of_gt h)
    · intro h0
      simp only [] at h0
      exact absurd h0 (ne_of_gt h)
  · have hs0 : pos.shares - shares = 0 := h.symm
    have hinv2 : pos.total_invested - investedInSold pos shares = 0 := by
      unfold investedInSold
      by_cases hps : 0 < pos.shares
      · have hss : shares = pos.shares := by linarith
        rw [hss, div_self (ne_of_gt hps)]
        simp [hps]
      · have hz : pos.shares = 0 := le_antisymm (not_lt.mp hps) hp
        simp [hps, hinv.2 hz]
    constructor
    · simp [hs0, hinv2]
    · intro _
      simpa using hinv2

/-- C1: for every well-formed ledger state (all positions satisfy the
invariant and have nonnegative share counts) and every successful buy or
sell mutation applied to it (buys carry a positive share quantity, as every
engine buy does), every position in the resulting state satisfies
`avg_cost * shares == total_invested` — exactly, hence within the 1e-6
tolerance — and `shares == 0` implies `total_invested == 0`. -/
theorem mutations_preserve_position_invariant (d : LedgerData)
    (hinv : ledgerInvariant d) (hnn : sharesNonneg d) :
    (∀ slug shares cost d2, 0 < shares →
       record_buy d slug shares cost = .ok d2 → ledgerInvariant d2) ∧
    (∀ slug shares proceeds d2 pl,
       record_sell d slug shares proceeds = .ok (d2, pl) →
         ledgerInvariant d2) := by
  constructor
  · intro slug shares cost d2 hsh hok
    unfold record_buy at hok
    split at hok
    · exact absurd hok (by simp)
    · rename_i hb
      injection hok with h
      subst h
      intro s p hp
      rw [show (⟨d.balance - cost,
            setPos d.positions slug
              (afterBuyPos ((lookupPos d.positions slug).getD ⟨0, 0, 0⟩)
                shares cost)⟩ : LedgerData).positions =
          setPos d.positions slug
            (afterBuyPos ((lookupPos d.positions slug).getD ⟨0, 0, 0⟩)
              shares cost) from rfl, lookupPos_setPos] at hp
      split at hp
      · injection hp with hp2
        subst hp2
        exact posInvariant_afterBuyPos _ shares cost
          (getD_shares_nonneg d hnn slug) hsh
      · exact hinv s p hp
  · intro slug shares proceeds d2 pl hok
    unfold record_sell at hok
    split at hok
    · exact absurd hok (by simp)
    · rename_i pos hl
      split at hok
      · exact absurd hok (by simp)
      · rename_i hlt
        injection hok with h
        injection h with h1 h2
        subst h1
        intro s p hp
        rw [show (⟨d.balance + proceeds,
              setPos d.positions slug (afterSalePos pos shares)⟩ :
                LedgerData).positions =
            setPos d.positions slug (afterSalePos pos shares) from rfl,
          lookupPos_setPos] at hp
        split at hp
        · injection hp with hp2
          subst hp2
          exact posInvariant_afterSalePos pos shares (hnn slug pos hl)
            (hinv slug pos hl) (not_lt.mp hlt)
        · exact hinv s p hp

theorem mutations_preserve_position_invariant_witness :
    posInvariant ⟨10, 6/5, 12⟩ := by
  have hinv : ledgerInvariant defaultLedger := by
    intro s p hp
    simp [defaultLedger, lookupPos] at hp
  have hnn : sharesNonneg defaultLedger := by
    intro s p hp
    simp [defaultLedger, lookupPos] at hp
  have hbuy : record_buy defaultLedger "x" 10 12 =
      .ok ⟨18, [("x", ⟨10, 6/5, 12⟩)]⟩ := by
    norm_num [record_buy, defaultLedger, setPos, afterBuyPos, lookupPos]
  have h := (mutations_preserve_position_invariant defaultLedger hinv hnn).1
    "x" 10 12 ⟨18, [("x", ⟨10, 6/5, 12⟩)]⟩ (by norm_num) hbuy
  exact h "x" ⟨10, 6/5, 12⟩ rfl

/-- C2: for every ledger state and every call
`buy(instrument, shares, total_cost)` with `total_cost > balance`, the buy
returns the `InsufficientBalance` failure and leaves balance and positions
exactly unchanged — the stored state keeps its old value and no trade
record is appended. -/
theorem buy_insufficient_balance_no_mutation (d : LedgerData) (slug : String)
    (shares cost : ℚ) (h : d.balance < cost) :
    record_buy d slug shares cost = .error .InsufficientBalance ∧
    applyBuy d slug shares cost = (d, false) ∧
    buyHistoryEntry d slug shares cost = none := by
  have hbuy : record_buy d slug shares cost = .error .InsufficientBalance := by
    unfold record_buy
    simp [h]
  refine ⟨hbuy, ?_, ?_⟩
  · unfold applyBuy
    rw [hbuy]
  · unfold buyHistoryEntry
    rw [hbuy]

theorem buy_insufficient_balance_no_mutation_witness :
    record_buy defaultLedger "x" 1 31 = .error .InsufficientBalance ∧
    applyBuy defaultLedger "x" 1 31 = (defaultLedger, false) ∧
    buyHistoryEntry defaultLedger "x" 1 31 = none :=
  buy_insufficient_balance_no_mutation defaultLedger "x" 1 31
    (by norm_num [defaultLedger])

/-- C3: for every ledger state, `sell(instrument, shares, total_proceeds)`
returns the `NoPosition` failure when the instrument has no tracked
position, returns the `InsufficientShares` failure when
`shares > position.shares`, and in both failure cases the stored ledger
state is unchanged and no trade record is appended. -/
theorem sell_failure_no_mutation (d : LedgerData) (slug : String)
    (shares proceeds : ℚ) :
    (lookupPos d.positions slug = none →
       record_sell d slug shares proceeds = .error .NoPosition ∧
       applySell d slug shares proceeds = (d, false) ∧
       sellHistoryEntry d slug shares proceeds = none) ∧
    (∀ pos, lookupPos d.positions slug = some pos → pos.shares < shares →
       record_sell d slug shares proceeds = .error .InsufficientShares ∧
       applySell d slug shares proceeds = (d, false) ∧
       sellHistoryEntry d slug shares proceeds = none) := by
  constructor
  · intro hnone
    have hsell : record_sell d slug shares proceeds = .error .NoPosition := by
      unfold record_sell
      rw [hnone]
    exact ⟨hsell, by unfold applySell; rw [hsell],
           by unfold sellHistoryEntry; rw [hsell]⟩
  · intro pos hpos hlt
    have hsell : record_sell d slug shares proceeds = .error .InsufficientShares := by
      unfold record_sell
      rw [hpos]
      simp [hlt]
    exact ⟨hsell, by unfold applySell; rw [hsell],
           by unfold sellHistoryEntry; rw [hsell]⟩

theorem sell_failure_no_mutation_witness :
    (record_sell demoLedger "y" 1 1 = .error .NoPosition ∧
     applySell demoLedger "y" 1 1 = (demoLedger, false) ∧
     sellHistoryEntry demoLedger "y" 1 1 = none) ∧
    (record_sell demoLedger "x" 5 1 = .error .InsufficientShares ∧
     applySell demoLedger "x" 5 1 = (demoLedger, false) ∧
     sellHistoryEntry demoLedger "x" 5 1 = none) :=
  ⟨(sell_failure_no_mutation demoLedger "y" 1 1).1 rfl,
   (sell_failure_no_mutation demoLedger "x" 5 1).2 ⟨2, 1, 2⟩ rfl (by norm_num)⟩

/-- C4: for every ledger state with a tracked position and every
`sell(instrument, shares, total_proceeds)` with `shares <= position.shares`
(and a well-formed nonnegative share count), the sell succeeds with
`invested_in_sold = (shares / position.shares) * position.total_invested`
(0 if `position.shares == 0`), `profit_loss = total_proceeds -
invested_in_sold`, the balance grows by the proceeds, the position loses
`shares` shares and `invested_in_sold` of cost basis, and `avg_cost` is
recomputed as `total_invested / shares` (0 when no shares remain); other
positions are untouched. -/
theorem sell_success_proportional_allocation (d : LedgerData) (slug : String)
    (pos : Position) (shares proceeds : ℚ)
    (hpos : lookupPos d.positions slug = some pos)
    (hle : shares ≤ pos.shares) (hnn : 0 ≤ pos.shares) :
    record_sell d slug shares proceeds =
      .ok (⟨d.balance + proceeds,
            setPos d.positions slug (afterSalePos pos shares)⟩,
           proceeds - investedInSold pos shares) ∧
    investedInSold pos shares =
      (if pos.shares = 0 then 0
       else (shares / pos.shares) * pos.total_invested) ∧
    afterSalePos pos shares =
      ⟨pos.shares - shares,
       (if pos.shares - shares = 0 then 0
        else (pos.total_invested - investedInSold pos shares) /
          (pos.shares - shares)),
       pos.total_invested - investedInSold pos shares⟩ ∧
    lookupPos (setPos d.positions slug (afterSalePos pos shares)) slug =
      some (afterSalePos pos shares) ∧
    (∀ s, s ≠ slug →
       lookupPos (setPos d.positions slug (afterSalePos pos shares)) s =
         lookupPos d.positions s) := by
  refine ⟨record_sell_ok_eq d slug pos shares proceeds hpos hle, ?_, ?_,
    lookupPos_setPos_self _ _ _,
    fun s hs => lookupPos_setPos_other _ _ _ _ hs⟩
  · unfold investedInSold
    rcases lt_or_eq_of_le hnn with h | h
    · simp [h, ne_of_gt h]
    · simp [← h]
  · have hs2 : 0 ≤ pos.shares - shares := by linarith
    unfold afterSalePos
    rcases lt_or_eq_of_le hs2 with h | h
    · simp [h, ne_of_gt h]
    · simp [← h]

theorem sell_success_proportional_allocation_witness :
    applySell demoHolding "x" 4 5 =
      (⟨35, [("x", ⟨6, 6/5, 36/5⟩)]⟩, true) := by
  have h := (sell_success_proportional_allocation demoHolding "x"
    ⟨10, 6/5, 12⟩ 4 5 rfl (by norm_num) (by norm_num)).1
  unfold applySell
  rw [h]
  norm_num [demoHolding, setPos, afterSalePos, investedInSold]

/-- C10: when the persistent balance file is absent or parses to empty
(modelled as `none`), every ledger operation behaves as if the state were
balance 30 with an empty position map: `get_balance` returns 30,
`get_position` finds nothing, and buys and sells compute exactly as on the
default state. -/
theorem absent_file_defaults (slug : String) (shares cost proceeds : ℚ) :
    get_balance none = 30 ∧
    get_position none slug = none ∧
    load_balance none = defaultLedger ∧
    record_buy (load_balance none) slug shares cost =
      record_buy defaultLedger slug shares cost ∧
    record_sell (load_balance none) slug shares proceeds =
      record_sell defaultLedger slug shares proceeds :=
  ⟨rfl, rfl, rfl, rfl, rfl⟩

/-- C5: for every budget and list of ask levels, the buy planner agrees
with the spec's description of simulate_buy: sort the usable levels
ascending by price, walk them taking `min(level.size, remaining_budget /
level.price)` shares per level, emit a fill and subtract its cost whenever
the share quantity is positive, stop when the remaining budget is non-
positive or levels run out; a non-positive budget or no usable levels
yields empty fills, zero shares, zero cost rather than an error. -/
theorem trade_plan_matches_spec_walk (investment : ℚ)
    (asks : List (ℚ × ℚ)) :
    planResult (trade_plan investment asks) =
      simulate_buy_spec investment asks := by
  by_cases hne : usableAsks asks = []
  · simp [trade_plan, simulate_buy_spec, hne, planResult]
  · by_cases hinv : 0 < investment
    · have hw : buyLoop investment 0 0 [] (sortAsksAsc (usableAsks asks)) =
          ((specBuyWalk investment (sortAsksAsc (usableAsks asks))).1,
           (specBuyWalk investment (sortAsksAsc (usableAsks asks))).2.1,
           (specBuyWalk investment (sortAsksAsc (usableAsks asks))).2.2) := by
        simpa using
          buyLoop_eq_specWalk (sortAsksAsc (usableAsks asks)) investment 0 0 []
      obtain ⟨l, rest, hsorted⟩ :
          ∃ l rest, sortAsksAsc (usableAsks asks) = l :: rest := by
        cases hs : sortAsksAsc (usableAsks asks) with
        | nil => exact absurd hs (sortAsksAsc_ne_nil hne)
        | cons a b => exact ⟨a, b, rfl⟩
      have hlpos : 0 < l.1 ∧ 0 < l.2 :=
        mem_usableAsks (mem_sortAsksAsc (hsorted ▸ List.mem_cons_self l rest))
      have hfne : (specBuyWalk investment (sortAsksAsc (usableAsks asks))).1 ≠ [] := by
        rw [hsorted]
        exact specBuyWalk_fills_nonempty l.1 l.2 investment rest
          hlpos.1 hlpos.2 hinv
      simp [trade_plan, simulate_buy_spec, hne, hinv, not_le.mpr hinv,
        hw, hfne, planResult]
    · have hle : investment ≤ 0 := not_lt.mp hinv
      simp [trade_plan, simulate_buy_spec, hinv, hle, planResult]

/-- C6: the total cost returned by the buy planner never exceeds the
budget, and the filled quantity returned by the simulated sell never
exceeds the (nonnegative) requested quantity. -/
theorem fill_monotonicity :
    (∀ investment asks info, trade_plan investment asks = some info →
       info.spend ≤ investment) ∧
    (∀ quantity bids, 0 ≤ quantity →
       filledQuantity (simulate_sell quantity bids) ≤ quantity) := by
  constructor
  · intro investment asks info hsome
    by_cases hne : usableAsks asks = []
    · simp [trade_plan, hne] at hsome
    · by_cases hinv : 0 < investment
      · have hw : buyLoop investment 0 0 [] (sortAsksAsc (usableAsks asks)) =
            ((specBuyWalk investment (sortAsksAsc (usableAsks asks))).1,
             (specBuyWalk investment (sortAsksAsc (usableAsks asks))).2.1,
             (specBuyWalk investment (sortAsksAsc (usableAsks asks))).2.2) := by
          simpa using
            buyLoop_eq_specWalk (sortAsksAsc (usableAsks asks)) investment 0 0 []
        have hall : ∀ l ∈ sortAsksAsc (usableAsks asks), 0 < l.1 :=
          fun l hl => (mem_usableAsks (mem_sortAsksAsc hl)).1
        have hb := specBuyWalk_spend_le (sortAsksAsc (usableAsks asks))
          hall investment
        rw [max_eq_left (le_of_lt hinv)] at hb
        simp only [trade_plan, hne, hinv, and_self, ne_eq,
          not_false_iff, if_true, hw] at hsome
        split at hsome
        · injection hsome with hinfo
          subst hinfo
          exact hb
        · exact absurd hsome (by simp)
      · simp [trade_plan, hne, hinv] at hsome
  · intro quantity bids hq
    have h := sellLoop_filled_le (sortBidsDesc bids) quantity 0 [] hq
    simpa [simulate_sell, filledQuantity] using h

theorem fill_monotonicity_witness :
    (⟨65/3, 12, [⟨1/2, 10, 5⟩, ⟨3/5, 35/3, 7⟩]⟩ : TradeInfo).spend ≤ 12 ∧
    filledQuantity (simulate_sell 10 [(1/2, 4)]) ≤ 10 := by
  constructor
  · refine fill_monotonicity.1 12 [(3/5, 50), (1/2, 10)]
      ⟨65/3, 12, [⟨1/2, 10, 5⟩, ⟨3/5, 35/3, 7⟩]⟩ ?_
    norm_num [trade_plan, usableAsks, sortAsksAsc, List.insertionSort,
      List.orderedInsert, buyLoop]
    exact ⟨by simp, by simp⟩
  · exact fill_monotonicity.2 10 [(1/2, 4)] (by norm_num)

/-- C7 counterexample: with a held position of ten shares, an armed timer,
and an unavailable order book at expiry, the liquidation attempt fails
and the timer entry is deleted rather than remaining armed — refuting the
claim that the timer stays armed and the liquidation is retried on the
next tick. -/
theorem liquidation_failure_retry_cx :
    lookupTimer [("x", (0 : ℚ))] "x" = some 0 ∧
    lookupPos demoHolding.positions "x" = some ⟨10, 6/5, 12⟩ ∧
    (expiryStep demoHolding [("x", 0)] "x" none).timers = [] ∧
    lookupTimer (expiryStep demoHolding [("x", 0)] "x" none).timers "x" =
      none := by
  refine ⟨rfl, rfl, ?_, ?_⟩
  · norm_num [expiryStep, demoHolding, lookupPos, removeTimer]
  · norm_num [expiryStep, demoHolding, lookupPos, removeTimer, lookupTimer]

/-- C7 amended: when the liquidation timer for an instrument with a held
position expires and the forced sell fails because no order book is
available, the engine deletes the timer entry for that instrument (the
ledger is unchanged and no sell is recorded), so the liquidation is not
retried on later ticks; the code deletes the timer in the same way when
the ledger sell is rejected. -/
theorem liquidation_failure_clears_timer (d : LedgerData)
    (timers : List (String × ℚ)) (slug : String) (pos : Position)
    (hpos : lookupPos d.positions slug = some pos) (hs : 0 < pos.shares) :
    expiryStep d timers slug none = ⟨d, removeTimer timers slug, none⟩ ∧
    lookupTimer (expiryStep d timers slug none).timers slug = none := by
  have hstep : expiryStep d timers slug none =
      ⟨d, removeTimer timers slug, none⟩ := by
    unfold expiryStep
    rw [hpos]
    simp [hs]
  refine ⟨hstep, ?_⟩
  rw [hstep]
  exact lookupTimer_removeTimer timers slug

theorem liquidation_failure_clears_timer_witness :
    expiryStep demoHolding [("x", 0)] "x" none = ⟨demoHolding, [], none⟩ ∧
    lookupTimer (expiryStep demoHolding [("x", 0)] "x" none).timers "x" =
      none := by
  have h := liquidation_failure_clears_timer demoHolding [("x", 0)] "x"
    ⟨10, 6/5, 12⟩ rfl (by norm_num)
  exact ⟨by rw [h.1]; rfl, h.2⟩

/-- C8: for an instrument whose ledger position has positive shares, an
arriving external signal resets an already-armed timer's start to the
current time — so with timeout 100 a timer armed at T would have expired
at T+100, while after a signal at reset time `now` it is not yet expired
at `now`+60 and expires at `now`+100 — and when no timer is armed the
signal leaves the timer map unchanged (the instrument stays unarmed). -/
theorem signal_resets_only_armed_timer (d : LedgerData) (pos : Position)
    (timers : List (String × ℚ)) (slug : String) (now armed_at : ℚ)
    (hpos : lookupPos d.positions slug = some pos) (hs : 0 < pos.shares) :
    (lookupTimer timers slug = some armed_at →
       lookupTimer (heldSignalStep timers slug now) slug = some now) ∧
    (lookupTimer timers slug = none →
       heldSignalStep timers slug now = timers) ∧
    timerExpired armed_at 100 (armed_at + 100) = true ∧
    timerExpired now 100 (now + 60) = false ∧
    timerExpired now 100 (now + 100) = true := by
  refine ⟨?_, ?_, ?_, ?_, ?_⟩
  · intro h
    unfold heldSignalStep
    rw [h]
    simp [lookupTimer_setTimer_self]
  · intro h
    unfold heldSignalStep
    rw [h]
    simp
  · have e : armed_at + 100 - armed_at = (100 : ℚ) := by ring
    simp [timerExpired, e]
  · have e : now + 60 - now = (60 : ℚ) := by ring
    simp [timerExpired, e]
    norm_num
  · have e : now + 100 - now = (100 : ℚ) := by ring
    simp [timerExpired, e]

theorem signal_resets_only_armed_timer_witness :
    lookupTimer (heldSignalStep [("x", 5)] "x" 45) "x" = some 45 ∧
    heldSignalStep ([] : List (String × ℚ)) "x" 45 = [] ∧
    timerExpired 5 100 (5 + 100) = true ∧
    timerExpired 45 100 (45 + 60) = false ∧
    timerExpired 45 100 (45 + 100) = true := by
  have h1 := signal_resets_only_armed_timer demoHolding ⟨10, 6/5, 12⟩
    [("x", 5)] "x" 45 5 rfl (by norm_num)
  have h2 := signal_resets_only_armed_timer demoHolding ⟨10, 6/5, 12⟩
    [] "x" 45 5 rfl (by norm_num)
  exact ⟨h1.1 rfl, h2.2.1 rfl, h1.2.2.1, h1.2.2.2.1, h1.2.2.2.2⟩

/-- C9: on timer expiry with an available book, the engine records the
forced sell with the entire held `position.shares` as the sold quantity —
whatever portion of it the simulated fills against the bids actually
covered — so the proceeds of a possibly partial fill are attributed to a
full-size disposal, the balance grows by exactly those proceeds, and the
position is zeroed. -/
theorem forced_sell_records_full_position (d : LedgerData)
    (timers : List (String × ℚ)) (slug : String) (pos : Position)
    (bids : List (ℚ × ℚ)) (hpos : lookupPos d.positions slug = some pos)
    (hs : 0 < pos.shares) :
    (expiryStep d timers slug (some bids)).recorded =
      some ⟨slug, pos.shares, (simulate_sell pos.shares bids).2.1⟩ ∧
    (expiryStep d timers slug (some bids)).ledger.balance =
      d.balance + (simulate_sell pos.shares bids).2.1 ∧
    lookupPos (expiryStep d timers slug (some bids)).ledger.positions slug =
      some ⟨0, 0, 0⟩ := by
  have hok := record_sell_ok_eq d slug pos pos.shares
    ((simulate_sell pos.shares bids).2.1) hpos (le_refl _)
  have hstep : expiryStep d timers slug (some bids) =
      ⟨⟨d.balance + (simulate_sell pos.shares bids).2.1,
        setPos d.positions slug (afterSalePos pos pos.shares)⟩,
       removeTimer timers slug,
       some ⟨slug, pos.shares, (simulate_sell pos.shares bids).2.1⟩⟩ := by
    unfold expiryStep
    rw [hpos]
    simp [hs, hok]
  rw [hstep]
  refine ⟨rfl, rfl, ?_⟩
  rw [show (⟨⟨d.balance + (simulate_sell pos.shares bids).2.1,
        setPos d.positions slug (afterSalePos pos pos.shares)⟩,
       removeTimer timers slug,
       some ⟨slug, pos.shares, (simulate_sell pos.shares bids).2.1⟩⟩ :
         ExpiryResult).ledger.positions =
      setPos d.positions slug (afterSalePos pos pos.shares) from rfl]
  rw [afterSalePos_all pos hs]
  exact lookupPos_setPos_self _ _ _

theorem forced_sell_records_full_position_witness :
    (expiryStep demoHolding [("x", 0)] "x" (some [(1/2, 4)])).recorded =
      some ⟨"x", 10, 2⟩ ∧
    filledQuantity (simulate_sell 10 [(1/2, 4)]) = 4 ∧
    lookupPos
      (expiryStep demoHolding [("x", 0)] "x"
        (some [(1/2, 4)])).ledger.positions "x" = some ⟨0, 0, 0⟩ := by
  have h := forced_sell_records_full_position demoHolding [("x", 0)] "x"
    ⟨10, 6/5, 12⟩ [(1/2, 4)] rfl (by norm_num)
  refine ⟨?_, ?_, h.2.2⟩
  · rw [h.1]
    norm_num [simulate_sell, sortBidsDesc, List.insertionSort,
      List.orderedInsert, sellLoop]
  · norm_num [simulate_sell, sortBidsDesc, List.insertionSort,
      List.orderedInsert, sellLoop, filledQuantity]

end SniperX
